import Mathlib

/-!
Verification of the synchronization and aggregation core of
`discord-nowplaying-integration`, shallowly embedded from the Python source:

* `utils/__init__.py` — `RateLimiter`, `Queue` (the coalescing single-slot
  queue), `truncate`, `format_status_message`;
* `nowplaying/__init__.py` — `NowPlayingNotifier` (the ordered source
  registry and its derived current track).

Strings are modelled as `List Char`; a Python `str`'s UTF-8 byte length is
`utf8Len`.  Event-loop time is modelled as `ℚ`.  Python `assert` failures
are modelled by returning `none` from an `Option`-valued function.
-/

/-! ### UTF-8 byte accounting and Python string helpers -/

/-- UTF-8 encoded byte length of a string, `len(s.encode())` in the source. -/
def utf8Len (l : List Char) : Nat := (l.map Char.utf8Size).sum

/-- Python `str.isspace` / the whitespace class used by `str.split`,
`str.rsplit` and `str.strip`: the Unicode whitespace code points. -/
def pyIsSpace (c : Char) : Bool :=
  ([9, 10, 11, 12, 13, 28, 29, 30, 31, 32, 0x85, 0xA0, 0x1680,
    0x2000, 0x2001, 0x2002, 0x2003, 0x2004, 0x2005, 0x2006, 0x2007,
    0x2008, 0x2009, 0x200A, 0x2028, 0x2029, 0x202F, 0x205F, 0x3000] : List Nat).contains c.toNat

/-- `s.encode()[:n].decode(errors='ignore')` for a valid-UTF-8 `s`: the
longest character prefix whose encoded length fits in `n` bytes; the bytes of
a partially cut character are dropped by the lenient decoder. -/
def takeBytes : Nat → List Char → List Char
  | _, [] => []
  | n, c :: cs => if c.utf8Size ≤ n then c :: takeBytes (n - c.utf8Size) cs else []

/-- The first component of Python `s.rsplit(maxsplit=1)` when it has two
components: drop the trailing run of non-whitespace (the last word), then the
run of whitespace before it; CPython keeps the remaining head verbatim.
An empty result corresponds to `len(split) == 1`. -/
def rsplitInit (l : List Char) : List Char :=
  ((l.reverse.dropWhile (fun c => ! pyIsSpace c)).dropWhile pyIsSpace).reverse

/-- Python `s.strip()`: remove leading and trailing whitespace. -/
def stripChars (l : List Char) : List Char :=
  ((l.dropWhile pyIsSpace).reverse.dropWhile pyIsSpace).reverse

/-- The ellipsis marker `'[…]'` of `truncate` (5 UTF-8 bytes). -/
def ellipsisChars : List Char := "[…]".toList

/-- The word-lobbing step of `truncate`: if the byte-cut string is non-empty
and does not end in whitespace, `rsplit(maxsplit=1)`; if that yields two
parts, keep the first and append a single space, else keep the string. -/
def wordBoundaryCut (l : List Char) : List Char :=
  match l.getLast? with
  | none => l
  | some c =>
    if pyIsSpace c then l
    else
      let init := rsplitInit l
      if init = [] then l else init ++ [' ']

/-- `truncate(string, max_bytes)` from `utils/__init__.py`.  `none` models an
`AssertionError`: the entry assertion `max_bytes - ellipsis_bytes >= 0` and
the exit assertion `len(truncated_string.encode()) <= max_bytes`. -/
def truncate (s : List Char) (max_bytes : Nat) : Option (List Char) :=
  let ellipsis_bytes := utf8Len ellipsisChars
  if max_bytes < ellipsis_bytes then none
  else if utf8Len s ≤ max_bytes then some s
  else
    let cut := takeBytes (max_bytes - ellipsis_bytes) s
    let truncated_string := wordBoundaryCut cut ++ ellipsisChars
    if utf8Len truncated_string ≤ max_bytes then some truncated_string else none

/-- `format_status_message(artist, title)` from `utils/__init__.py`.
Byte counts that the source manipulates as Python ints are `Int` here;
`none` models an `AssertionError` (its own two assertions, or one raised
inside a `truncate` call). -/
def format_status_message (artist0 title0 : List Char) : Option (List Char) :=
  let separator : List Char := " — ".toList
  let unknown : List Char := "[unknown]".toList
  let min_artist_bytes_when_truncated : Int := 30
  let max_bytes : Int := 128
  let max_bytes_available : Int := max_bytes - utf8Len separator
  if ¬ (min_artist_bytes_when_truncated < max_bytes_available) then none
  else
    let artist := if stripChars artist0 = [] then unknown else stripChars artist0
    let title := if stripChars title0 = [] then unknown else stripChars title0
    let artist_bytes : Int := utf8Len artist
    let title_bytes : Int := utf8Len title
    let bytes_left : Int := max_bytes_available - artist_bytes - title_bytes
    let afterArtist : Option (List Char × Int) :=
      if bytes_left < 0 then
        if artist_bytes > min_artist_bytes_when_truncated then
          (truncate artist
              (max min_artist_bytes_when_truncated (artist_bytes + bytes_left)).toNat).map
            (fun a => (a, max_bytes_available - utf8Len a - title_bytes))
        else some (artist, bytes_left)
      else some (artist, bytes_left)
    afterArtist.bind fun p =>
      let afterTitle : Option (List Char) :=
        if p.2 < 0 then truncate title (title_bytes + p.2).toNat
        else some title
      afterTitle.bind fun title2 =>
        let status_message := p.1 ++ separator ++ title2
        if utf8Len status_message ≤ max_bytes then some status_message else none

/-! ### The coalescing queue (`Queue` in `utils/__init__.py`)

Items are `Option τ`: Python pushes `track` objects or `None` through the
queue, and `_last_popped_item` is initialised to `None`.  The deque holds the
pending items (front = oldest); `main` constructs the queue with `maxlen=1`. -/

structure QueueState (τ : Type) where
  maxlen : Nat
  dq : List (Option τ)
  last_popped_item : Option τ
deriving DecidableEq

/-- A freshly constructed `Queue`: empty deque, `_last_popped_item = None`. -/
def freshQueue (τ : Type) (maxlen : Nat) : QueueState τ :=
  { maxlen := maxlen, dq := [], last_popped_item := none }

/-- The `_last_item` property: `self._deque[-1] if len(self._deque) else
self._last_popped_item`. -/
def lastItem {τ : Type} (s : QueueState τ) : Option τ :=
  match s.dq.getLast? with
  | some x => x
  | none => s.last_popped_item

/-- `collections.deque(maxlen=m).append(x)`: append on the right and discard
from the left whatever exceeds the bound. -/
def dequeAppend {ι : Type} (m : Nat) (dq : List ι) (x : ι) : List ι :=
  let d := dq ++ [x]
  d.drop (d.length - m)

/-- `Queue._put(item)` (minus the condition-variable signalling): append the
item only when it differs from `_last_item`. -/
def qput {τ : Type} [DecidableEq τ] (s : QueueState τ) (item : Option τ) : QueueState τ :=
  if item ≠ lastItem s then { s with dq := dequeAppend s.maxlen s.dq item } else s

/-- `Queue.get()` when no further `put` can arrive: `none` means the
`wait_for(lambda: len(self._deque))` suspends forever (empty slot); otherwise
pop the front item, record it as `_last_popped_item`, and return it. -/
def qtryGet {τ : Type} (s : QueueState τ) : Option (Option τ × QueueState τ) :=
  match s.dq with
  | [] => none
  | x :: rest => some (x, { s with dq := rest, last_popped_item := x })

/-! ### The source registry (`NowPlayingNotifier` in `nowplaying/__init__.py`)

`_mapping` is an `OrderedDict`; modelled as an association list in insertion
order (head = oldest entry). -/

/-- `self._mapping[player] = track`: overwrite in place when the key exists
(position unchanged), append otherwise. -/
def odUpdate {σ τ : Type} [DecidableEq σ] (m : List (σ × τ)) (k : σ) (v : τ) :
    List (σ × τ) :=
  if k ∈ m.map Prod.fst then
    m.map (fun e => if e.1 = k then (k, v) else e)
  else m ++ [(k, v)]

/-- `if player in self._mapping: del self._mapping[player]`. -/
def odRemove {σ τ : Type} [DecidableEq σ] (m : List (σ × τ)) (k : σ) : List (σ × τ) :=
  if k ∈ m.map Prod.fst then m.filter (fun e => decide (e.1 ≠ k)) else m

/-- The `current_track` property: the value of the first (oldest-inserted)
entry, or `None` when the registry is empty. -/
def current_track {σ τ : Type} (m : List (σ × τ)) : Option τ :=
  m.head?.map Prod.snd

/-- The mutation performed by `NowPlayingNotifier.notify(player, track)` on
`_mapping`: remove on `None`, insert-or-overwrite otherwise. -/
def notifyMap {σ τ : Type} [DecidableEq σ] (m : List (σ × τ)) (player : σ)
    (track : Option τ) : List (σ × τ) :=
  match track with
  | none => odRemove m player
  | some tr => odUpdate m player tr

/-! ### The rate limiter (`RateLimiter` in `utils/__init__.py`)

`loop.time()` instants are `ℚ`; `_expiration_timestamps` is a deque of at
most `quota` instants, front = oldest. -/

/-- The pruning loop of `__aenter__`: pop expired timestamps from the left
while the front one is `<=` the current time. -/
def pruneStamps (t : ℚ) (stamps : List ℚ) : List ℚ :=
  stamps.dropWhile (fun s => decide (s ≤ t))

/-- `RateLimiter.__aenter__` at instant `t`: prune, then, if the window is at
quota, sleep until the popped oldest expiration; result is the sleep target
(`none` = no suspension) and the new window.  (The `[]` case of a full window
is unreachable for `0 < q`.) -/
def rlEnter (q : Nat) (stamps : List ℚ) (t : ℚ) : Option ℚ × List ℚ :=
  let pruned := pruneStamps t stamps
  if pruned.length = q then
    match pruned with
    | [] => (none, [])
    | oldest :: rest => (some oldest, rest)
  else (none, pruned)

/-- `RateLimiter.__aexit__` at instant `t`: the entry assertion
`len < maxlen` (else `none`), then append `t + interval` only on an
exception-free exit (`ok = true`). -/
def rlExit (q : Nat) (i : ℚ) (ok : Bool) (stamps : List ℚ) (t : ℚ) :
    Option (List ℚ) :=
  if stamps.length < q then some (if ok then stamps ++ [t + i] else stamps) else none

/-- One scoped acquisition whose protected section is instantaneous: enter at
`t`, wake at the sleep target if the limiter slept, then exit normally.
Returns the sleep target of this acquisition and the window afterwards. -/
def rlScoped (q : Nat) (i : ℚ) (stamps : List ℚ) (t : ℚ) : Option ℚ × List ℚ :=
  let entered := rlEnter q stamps t
  let texit : ℚ := match entered.1 with | none => t | some w => w
  match rlExit q i true entered.2 texit with
  | some st => (entered.1, st)
  | none => (entered.1, entered.2)

/-- A sequence of scoped acquisitions at the given instants; collects each
acquisition's sleep target and the final window. -/
def runAcquisitions (q : Nat) (i : ℚ) : List ℚ → List ℚ → List (Option ℚ) × List ℚ
  | stamps, [] => ([], stamps)
  | stamps, t :: ts =>
    let step := rlScoped q i stamps t
    let rest := runAcquisitions q i step.2 ts
    (step.1 :: rest.1, rest.2)

/-! ### Helper lemmas: UTF-8 byte accounting -/

lemma utf8Len_append (a b : List Char) : utf8Len (a ++ b) = utf8Len a + utf8Len b := by
  simp [utf8Len]

lemma utf8Len_reverse (l : List Char) : utf8Len l.reverse = utf8Len l := by
  simp [utf8Len, List.sum_reverse]

lemma utf8Len_cons (c : Char) (l : List Char) :
    utf8Len (c :: l) = c.utf8Size + utf8Len l := by
  simp [utf8Len]

lemma utf8Len_ellipsis : utf8Len ellipsisChars = 5 := by decide

lemma utf8Len_takeBytes_le : ∀ (n : Nat) (l : List Char), utf8Len (takeBytes n l) ≤ n := by
  intro n l
  induction l generalizing n with
  | nil => simp [takeBytes, utf8Len]
  | cons c cs ih =>
    by_cases h : c.utf8Size ≤ n
    · have := ih (n - c.utf8Size)
      simp only [takeBytes, if_pos h, utf8Len_cons]
      omega
    · simp [takeBytes, if_neg h, utf8Len]

lemma utf8Len_dropWhile_le (p : Char → Bool) (l : List Char) :
    utf8Len (l.dropWhile p) ≤ utf8Len l := by
  induction l with
  | nil => simp
  | cons c cs ih =>
    by_cases h : p c
    · simpa [List.dropWhile_cons, h, utf8Len_cons] using le_trans ih (by omega)
    · simp [List.dropWhile_cons, h]

lemma utf8Len_wordBoundaryCut_le (l : List Char) :
    utf8Len (wordBoundaryCut l) ≤ utf8Len l := by
  unfold wordBoundaryCut
  cases hlast : l.getLast? with
  | none => exact le_refl _
  | some c =>
    by_cases hsp : pyIsSpace c
    · simp [hsp]
    · simp only [hsp, Bool.false_eq_true, if_false]
      by_cases hinit : rsplitInit l = []
      · simp [hinit]
      · simp only [hinit, if_neg, ite_false]
        -- l.reverse starts with the non-whitespace character c
        have hhead : l.reverse.head? = some c := by
          rw [List.head?_reverse]; exact hlast
        obtain ⟨rest, hrev⟩ : ∃ rest, l.reverse = c :: rest := by
          cases hr : l.reverse with
          | nil => rw [hr] at hhead; simp at hhead
          | cons a as =>
            rw [hr] at hhead; simp at hhead
            exact ⟨as, by rw [hhead]⟩
        have hlen : utf8Len l = c.utf8Size + utf8Len rest := by
          rw [← utf8Len_reverse l, hrev, utf8Len_cons]
        have hinit_le : utf8Len (rsplitInit l) ≤ utf8Len rest := by
          unfold rsplitInit
          rw [hrev, utf8Len_reverse]
          have h1 : (c :: rest).dropWhile (fun c => ! pyIsSpace c)
              = rest.dropWhile (fun c => ! pyIsSpace c) := by
            simp [List.dropWhile_cons, hsp]
          rw [h1]
          exact le_trans (utf8Len_dropWhile_le _ _) (utf8Len_dropWhile_le _ _)
        have hc : 1 ≤ c.utf8Size := Char.utf8Size_pos c
        rw [utf8Len_append]
        have : utf8Len [' '] = 1 := by decide
        rw [this]
        omega

/-- Totality and the byte bound of `truncate`: for `max_bytes` at least the
size of the ellipsis, no assertion fires and the result fits the budget. -/
lemma truncate_total (s : List Char) (mb : Nat) (h : 5 ≤ mb) :
    ∃ r, truncate s mb = some r ∧ utf8Len r ≤ mb := by
  unfold truncate
  rw [utf8Len_ellipsis]
  rw [if_neg (by omega)]
  by_cases hfit : utf8Len s ≤ mb
  · exact ⟨s, by rw [if_pos hfit], hfit⟩
  · rw [if_neg hfit]
    set cut := takeBytes (mb - 5) s with hcut
    have hb : utf8Len (wordBoundaryCut cut ++ ellipsisChars) ≤ mb := by
      rw [utf8Len_append, utf8Len_ellipsis]
      have h1 : utf8Len (wordBoundaryCut cut) ≤ utf8Len cut :=
        utf8Len_wordBoundaryCut_le cut
      have h2 : utf8Len cut ≤ mb - 5 := utf8Len_takeBytes_le _ _
      omega
    exact ⟨_, by rw [if_pos hb], hb⟩

/-- `truncate` fails its entry assertion below the ellipsis size. -/
lemma truncate_entry_assert (s : List Char) (mb : Nat) (h : mb < 5) :
    truncate s mb = none := by
  unfold truncate
  rw [utf8Len_ellipsis, if_pos h]

/-! ### Helper lemmas: registry and rate limiter -/

/-- Overwriting the value of a key already present in the ordered mapping
leaves the key sequence (and hence every priority position) unchanged. -/
lemma odUpdate_keys {σ τ : Type} [DecidableEq σ] (m : List (σ × τ)) (k : σ) (v : τ)
    (hk : k ∈ m.map Prod.fst) : (odUpdate m k v).map Prod.fst = m.map Prod.fst := by
  rw [odUpdate, if_pos hk, List.map_map]
  apply List.map_congr_left
  intro e _
  by_cases h : e.1 = k
  · simp [h]
  · simp [h]

lemma pruneStamps_length_le (t : ℚ) (stamps : List ℚ) :
    (pruneStamps t stamps).length ≤ stamps.length :=
  List.Sublist.length_le (List.dropWhile_sublist _)

/-- Starting from a window that together with the pending acquisitions stays
within quota, no scoped acquisition in the sequence ever sleeps. -/
lemma runAcq_no_sleep (q : Nat) (i : ℚ) :
    ∀ (ts stamps : List ℚ), stamps.length + ts.length ≤ q →
      ∀ s ∈ (runAcquisitions q i stamps ts).1, s = none := by
  intro ts
  induction ts with
  | nil =>
    intro stamps _ s hs
    simp [runAcquisitions] at hs
  | cons t ts ih =>
    intro stamps h s hs
    have hlt : stamps.length < q := by
      simp only [List.length_cons] at h; omega
    have hpr : (pruneStamps t stamps).length < q :=
      lt_of_le_of_lt (pruneStamps_length_le t stamps) hlt
    have henter : rlEnter q stamps t = (none, pruneStamps t stamps) := by
      simp only [rlEnter]
      rw [if_neg (Nat.ne_of_lt hpr)]
    have hexit : rlExit q i true (pruneStamps t stamps) t
        = some (pruneStamps t stamps ++ [t + i]) := by
      simp [rlExit, hpr]
    have hstep : rlScoped q i stamps t = (none, pruneStamps t stamps ++ [t + i]) := by
      simp only [rlScoped, henter, hexit]
    simp only [runAcquisitions, hstep] at hs
    rcases List.mem_cons.mp hs with h1 | h1
    · exact h1
    · refine ih (pruneStamps t stamps ++ [t + i]) ?_ s h1
      have h3 := pruneStamps_length_le t stamps
      simp only [List.length_cons] at h
      simp only [List.length_append, List.length_cons, List.length_nil]
      omega

/-! ### Claim theorems -/

/-- C1 counterexample: with capacity 1, from an empty slot with last-popped
value `some 0`, after `put (some 1); put (some 2)` the first `get` returns
`some 2`, not `some 1` as the claim asserts — the second distinct `put`
overwrote the unconsumed first one. -/
theorem queue_put_put_inorder_cex :
    ((qtryGet (qput (qput (⟨1, [], some 0⟩ : QueueState Nat) (some 1)) (some 2))).map
        (fun r => r.1)) = some (some 2) ∧ some (some 2) ≠ some (some 1) := by decide

/-- C1 (amended): with capacity 1, `put x; put y` (`x ≠ y`, both new) leaves
only `y` pending: the first `get` returns `y` and a second `get` suspends —
`x` was overwritten, not delivered.  The in-order delivery `x` then `y` holds
when the consumer pops `x` before `put y` arrives. -/
theorem queue_capacity_one_put_put_delivery {τ : Type} [DecidableEq τ] (z x y : Option τ)
    (hzx : z ≠ x) (_hzy : z ≠ y) (hxy : x ≠ y) :
    (∃ s3, qtryGet (qput (qput (⟨1, [], z⟩ : QueueState τ) x) y) = some (y, s3) ∧
      qtryGet s3 = none) ∧
    (∃ s1, qtryGet (qput (⟨1, [], z⟩ : QueueState τ) x) = some (x, s1) ∧
      ∃ s2, qtryGet (qput s1 y) = some (y, s2)) := by
  have h1 : qput (⟨1, [], z⟩ : QueueState τ) x = ⟨1, [x], z⟩ := by
    simp [qput, lastItem, dequeAppend, Ne.symm hzx]
  have h2 : qput (⟨1, [x], z⟩ : QueueState τ) y = ⟨1, [y], z⟩ := by
    simp [qput, lastItem, dequeAppend, Ne.symm hxy]
  have h3 : qput (⟨1, [], x⟩ : QueueState τ) y = ⟨1, [y], x⟩ := by
    simp [qput, lastItem, dequeAppend, Ne.symm hxy]
  refine ⟨⟨⟨1, [], y⟩, ?_, rfl⟩, ⟨⟨1, [], x⟩, ?_, ⟨1, [], y⟩, ?_⟩⟩
  · rw [h1, h2]; rfl
  · rw [h1]; rfl
  · rw [h3]; rfl

theorem queue_capacity_one_put_put_delivery_witness :
    (∃ s3, qtryGet (qput (qput (⟨1, [], some 0⟩ : QueueState Nat) (some 1)) (some 2))
        = some (some 2, s3) ∧ qtryGet s3 = none) ∧
    (∃ s1, qtryGet (qput (⟨1, [], some 0⟩ : QueueState Nat) (some 1)) = some (some 1, s1) ∧
      ∃ s2, qtryGet (qput s1 (some 2)) = some (some 2, s2)) :=
  @queue_capacity_one_put_put_delivery Nat _ (some 0) (some 1) (some 2)
    (by decide) (by decide) (by decide)

/-- C2: with capacity 1 and an unconsumed item `p` pending, `put q` with
`q ≠ p` leaves the slot holding exactly `[q]`; and with capacity 1 the slot
never grows beyond one item. -/
theorem queue_put_replaces_pending {τ : Type} [DecidableEq τ] (w p q : Option τ)
    (hqp : q ≠ p) :
    (qput (⟨1, [p], w⟩ : QueueState τ) q).dq = [q] ∧
    (∀ (s : QueueState τ) (item : Option τ), s.maxlen = 1 → s.dq.length ≤ 1 →
      ((qput s item).dq).length ≤ 1) := by
  constructor
  · simp [qput, lastItem, dequeAppend, hqp]
  · intro s item hm _
    by_cases h : item ≠ lastItem s
    · simp [qput, h, dequeAppend, hm, List.length_drop]
    · simp [qput, h]; omega

theorem queue_put_replaces_pending_witness :
    (qput (⟨1, [some 5], some 7⟩ : QueueState Nat) (some 6)).dq = [some 6] :=
  (queue_put_replaces_pending (some 7) (some 5) (some 6) (by decide)).1

/-- C3: `put item` is a no-op exactly when `item` equals the pending value
(non-empty slot) or the last popped value (empty slot); hence
`put x; put x` queues `x` once, one `get` returns it, and a second `get`
suspends on the empty slot. -/
theorem queue_dedup_put_noop {τ : Type} [DecidableEq τ] :
    (∀ (s : QueueState τ) (item : Option τ), item = lastItem s → qput s item = s) ∧
    (∀ (z x : Option τ), x ≠ z →
      ∃ s3, qtryGet (qput (qput (⟨1, [], z⟩ : QueueState τ) x) x) = some (x, s3) ∧
        qtryGet s3 = none) := by
  constructor
  · intro s item h
    simp [qput, h]
  · intro z x hxz
    have h1 : qput (⟨1, [], z⟩ : QueueState τ) x = ⟨1, [x], z⟩ := by
      simp [qput, lastItem, dequeAppend, hxz]
    have h2 : qput (⟨1, [x], z⟩ : QueueState τ) x = ⟨1, [x], z⟩ := by
      simp [qput, lastItem]
    exact ⟨⟨1, [], x⟩, by rw [h1, h2]; rfl, rfl⟩

theorem queue_dedup_put_noop_witness :
    qput (⟨1, [some 4], some 9⟩ : QueueState Nat) (some 4) = ⟨1, [some 4], some 9⟩ ∧
    (∃ s3, qtryGet (qput (qput (⟨1, [], some 0⟩ : QueueState Nat) (some 1)) (some 1))
        = some (some 1, s3) ∧ qtryGet s3 = none) :=
  ⟨(@queue_dedup_put_noop Nat _).1 ⟨1, [some 4], some 9⟩ (some 4) (by decide),
   (@queue_dedup_put_noop Nat _).2 (some 0) (some 1) (by decide)⟩

/-- C10: on a freshly constructed queue (`_last_popped_item = None`),
`put None` is a no-op and `get` keeps suspending: an initial
"nothing playing" report is never delivered. -/
theorem queue_initial_put_none_noop {τ : Type} [DecidableEq τ] (maxlen : Nat) :
    qput (freshQueue τ maxlen) none = freshQueue τ maxlen ∧
    qtryGet (freshQueue τ maxlen) = none :=
  ⟨by simp [qput, lastItem, freshQueue], rfl⟩

/-- C4: registering A then B (both playing) derives A's track; after A stops,
B's; re-registering A appends it behind B, so B's track stays current; and
updating an already-present source never changes any priority position. -/
theorem registry_first_source_priority {σ τ : Type} [DecidableEq σ] (A B : σ)
    (tA tB tA2 : τ) (hAB : A ≠ B) :
    current_track (notifyMap (notifyMap ([] : List (σ × τ)) A (some tA)) B (some tB))
      = some tA ∧
    current_track (notifyMap (notifyMap (notifyMap ([] : List (σ × τ)) A (some tA))
      B (some tB)) A none) = some tB ∧
    current_track (notifyMap (notifyMap (notifyMap (notifyMap ([] : List (σ × τ))
      A (some tA)) B (some tB)) A none) A (some tA2)) = some tB ∧
    (∀ (m : List (σ × τ)) (p : σ) (tr : τ), p ∈ m.map Prod.fst →
      (odUpdate m p tr).map Prod.fst = m.map Prod.fst) := by
  have h1 : notifyMap ([] : List (σ × τ)) A (some tA) = [(A, tA)] := by
    simp [notifyMap, odUpdate]
  have h2 : notifyMap [(A, tA)] B (some tB) = [(A, tA), (B, tB)] := by
    simp [notifyMap, odUpdate, Ne.symm hAB]
  have h3 : notifyMap [(A, tA), (B, tB)] A none = [(B, tB)] := by
    simp [notifyMap, odRemove, hAB, Ne.symm hAB]
  have h4 : notifyMap [(B, tB)] A (some tA2) = [(B, tB), (A, tA2)] := by
    simp [notifyMap, odUpdate, hAB]
  refine ⟨?_, ?_, ?_, fun m p tr h => odUpdate_keys m p tr h⟩
  · rw [h1, h2]; rfl
  · rw [h1, h2, h3]; rfl
  · rw [h1, h2, h3, h4]; rfl

theorem registry_first_source_priority_witness :
    current_track (notifyMap (notifyMap ([] : List (Nat × Nat)) 0 (some 10)) 1 (some 20))
      = some 10 ∧
    current_track (notifyMap (notifyMap (notifyMap ([] : List (Nat × Nat)) 0 (some 10))
      1 (some 20)) 0 none) = some 20 ∧
    current_track (notifyMap (notifyMap (notifyMap (notifyMap ([] : List (Nat × Nat))
      0 (some 10)) 1 (some 20)) 0 none) 0 (some 30)) = some 20 := by
  obtain ⟨h1, h2, h3, -⟩ :=
    @registry_first_source_priority Nat Nat _ 0 1 10 20 30 (by decide)
  exact ⟨h1, h2, h3⟩

/-- C5: for every pair of input strings, `format_status_message` returns
normally and its result's UTF-8 byte length is at most 128. -/
theorem format_status_message_byte_bound : ∀ artist0 title0 : List Char,
    ∃ r, format_status_message artist0 title0 = some r ∧ utf8Len r ≤ 128 := by
  intro a0 t0
  have hsep : utf8Len " — ".toList = 5 := by decide
  simp only [format_status_message, hsep, Nat.cast_ofNat]
  rw [if_neg (by norm_num)]
  set A := (if stripChars a0 = [] then "[unknown]".toList else stripChars a0) with hA
  set T := (if stripChars t0 = [] then "[unknown]".toList else stripChars t0) with hT
  set a : Nat := utf8Len A with ha
  set t : Nat := utf8Len T with ht
  by_cases hbl : ((128 : Int) - 5 - ↑a - ↑t < 0)
  · rw [if_pos hbl]
    by_cases hart : ((a : Int) > 30)
    · rw [if_pos hart]
      have hm : 5 ≤ (max (30 : Int) (↑a + (128 - 5 - ↑a - ↑t))).toNat := by
        have : (30 : Int) ≤ max (30 : Int) (↑a + (128 - 5 - ↑a - ↑t)) := le_max_left _ _
        omega
      obtain ⟨a2, ha2, ha2le⟩ := truncate_total A _ hm
      rw [ha2]
      simp only [Option.map_some', Option.some_bind]
      set a2b : Nat := utf8Len a2 with ha2b
      have ha2le' : (a2b : Int) ≤ max (30 : Int) (↑a + (128 - 5 - ↑a - ↑t)) := by
        rcases le_or_lt (0 : Int) (max (30 : Int) (↑a + (128 - 5 - ↑a - ↑t))) with h | h
        · omega
        · omega
      by_cases hbl2 : ((128 : Int) - 5 - ↑a2b - ↑t < 0)
      · rw [if_pos hbl2]
        have hm2 : 5 ≤ ((t : Int) + (128 - 5 - ↑a2b - ↑t)).toNat := by
          rcases le_max_iff.mp (le_refl (max (30 : Int) (↑a + (128 - 5 - ↑a - ↑t)))) with _ | _
          · omega
          · omega
        obtain ⟨t2, ht2, ht2le⟩ := truncate_total T _ hm2
        rw [ht2]
        simp only [Option.some_bind]
        have hfit : (↑(utf8Len (a2 ++ " — ".toList ++ t2)) : Int) ≤ 128 := by
          rw [utf8Len_append, utf8Len_append, hsep]
          push_cast
          omega
        rw [if_pos hfit]
        exact ⟨_, rfl, by exact_mod_cast hfit⟩
      · rw [if_neg hbl2]
        simp only [Option.some_bind]
        have hfit : (↑(utf8Len (a2 ++ " — ".toList ++ T)) : Int) ≤ 128 := by
          rw [utf8Len_append, utf8Len_append, hsep]
          push_cast
          omega
        rw [if_pos hfit]
        exact ⟨_, rfl, by exact_mod_cast hfit⟩
    · rw [if_neg hart]
      simp only [Option.some_bind]
      rw [if_pos hbl]
      have hm2 : 5 ≤ ((t : Int) + (128 - 5 - ↑a - ↑t)).toNat := by omega
      obtain ⟨t2, ht2, ht2le⟩ := truncate_total T _ hm2
      rw [ht2]
      simp only [Option.some_bind]
      have hfit : (↑(utf8Len (A ++ " — ".toList ++ t2)) : Int) ≤ 128 := by
        rw [utf8Len_append, utf8Len_append, hsep]
        push_cast
        omega
      rw [if_pos hfit]
      exact ⟨_, rfl, by exact_mod_cast hfit⟩
  · rw [if_neg hbl]
    simp only [Option.some_bind]
    rw [if_neg hbl]
    simp only [Option.some_bind]
    have hfit : (↑(utf8Len (A ++ " — ".toList ++ T)) : Int) ≤ 128 := by
      rw [utf8Len_append, utf8Len_append, hsep]
      push_cast
      omega
    rw [if_pos hfit]
    exact ⟨_, rfl, by exact_mod_cast hfit⟩

/-- C6: `truncate` keeps within-budget inputs unchanged, satisfies the two
documented examples, and on over-budget inputs returns the byte-limited
character prefix, cut back to the last whitespace boundary (plus a single
space) when one exists and the prefix does not end in whitespace, followed by
the ellipsis marker. -/
theorem truncate_word_boundary_behavior :
    truncate "lorem ipsum dolor sit amet".toList 21 = some "lorem ipsum […]".toList ∧
    truncate "howdeedoodeethere".toList 11 = some "howdee[…]".toList ∧
    (∀ (s : List Char) (mb : Nat), 5 ≤ mb → utf8Len s ≤ mb → truncate s mb = some s) ∧
    (∀ (s : List Char) (mb : Nat), 5 ≤ mb → mb < utf8Len s →
      truncate s mb =
        some (wordBoundaryCut (takeBytes (mb - utf8Len ellipsisChars) s) ++ ellipsisChars)) := by
  refine ⟨by decide, by decide, ?_, ?_⟩
  · intro s mb h5 hfit
    unfold truncate
    rw [utf8Len_ellipsis, if_neg (by omega), if_pos hfit]
  · intro s mb h5 hover
    unfold truncate
    rw [utf8Len_ellipsis]
    rw [if_neg (by omega), if_neg (by omega)]
    have hb : utf8Len (wordBoundaryCut (takeBytes (mb - 5) s) ++ ellipsisChars) ≤ mb := by
      rw [utf8Len_append, utf8Len_ellipsis]
      have h1 := utf8Len_wordBoundaryCut_le (takeBytes (mb - 5) s)
      have h2 := utf8Len_takeBytes_le (mb - 5) s
      omega
    rw [if_pos hb]

theorem truncate_word_boundary_behavior_witness :
    truncate "foobar".toList 8 = some "foobar".toList ∧
    truncate "hello world".toList 9 =
      some (wordBoundaryCut (takeBytes (9 - utf8Len ellipsisChars) "hello world".toList)
        ++ ellipsisChars) :=
  ⟨truncate_word_boundary_behavior.2.2.1 "foobar".toList 8 (by decide) (by decide),
   truncate_word_boundary_behavior.2.2.2 "hello world".toList 9 (by decide) (by decide)⟩

/-- C9: for `max_bytes` at least the 5-byte ellipsis marker, `truncate`
returns normally (no assertion failure on either branch) within the byte
budget; below 5 it fails its entry assertion. -/
theorem truncate_assertion_safety (s : List Char) (mb : Nat) :
    (5 ≤ mb → ∃ r, truncate s mb = some r ∧ utf8Len r ≤ mb) ∧
    (mb < 5 → truncate s mb = none) :=
  ⟨truncate_total s mb, truncate_entry_assert s mb⟩

theorem truncate_assertion_safety_witness :
    (∃ r, truncate "hello world".toList 5 = some r ∧ utf8Len r ≤ 5) ∧
    truncate "hello world".toList 4 = none :=
  ⟨(truncate_assertion_safety "hello world".toList 5).1 (by decide),
   (truncate_assertion_safety "hello world".toList 4).2 (by decide)⟩

/-- C7: any sequence of at most `quota` scoped acquisitions from a fresh
window proceeds with no suspension; with all `quota` recorded permits
unexpired, the next acquisition sleeps until the oldest recorded expiration
(the front of the sorted window), which is removed, leaving the window
strictly below quota. -/
theorem rate_limiter_quota_behavior (q : Nat) (i : ℚ) :
    (∀ ts : List ℚ, ts.length ≤ q → ∀ s ∈ (runAcquisitions q i [] ts).1, s = none) ∧
    (∀ (stamps : List ℚ) (t : ℚ), stamps.length = q → 0 < q →
      List.Pairwise (· ≤ ·) stamps → (∀ s ∈ stamps, t < s) →
      ∃ oldest rest, stamps = oldest :: rest ∧
        rlEnter q stamps t = (some oldest, rest) ∧
        t < oldest ∧ (∀ s ∈ stamps, oldest ≤ s) ∧ rest.length < q) := by
  constructor
  · intro ts hts s hs
    exact runAcq_no_sleep q i ts [] (by simpa using hts) s hs
  · intro stamps t hlen hq hsort hfut
    cases stamps with
    | nil => simp at hlen; omega
    | cons o rest =>
      have hto : t < o := hfut o (List.mem_cons_self o rest)
      have hprune : pruneStamps t (o :: rest) = o :: rest := by
        simp only [pruneStamps, List.dropWhile_cons]
        rw [if_neg (by simp [not_le.mpr hto])]
      refine ⟨o, rest, rfl, ?_, hto, ?_, ?_⟩
      · simp only [rlEnter, hprune]
        rw [if_pos hlen]
      · intro s hs
        rcases List.mem_cons.mp hs with h1 | h1
        · exact le_of_eq h1.symm
        · exact (List.pairwise_cons.mp hsort).1 s h1
      · simp only [List.length_cons] at hlen; omega

theorem rate_limiter_quota_behavior_witness :
    (∀ s ∈ (runAcquisitions 2 60 [] [0, 30]).1, s = none) ∧
    (∃ oldest rest, ([60, 61] : List ℚ) = oldest :: rest ∧
      rlEnter 2 [60, 61] 5 = (some oldest, rest) ∧
      (5 : ℚ) < oldest ∧ (∀ s ∈ ([60, 61] : List ℚ), oldest ≤ s) ∧ rest.length < 2) :=
  ⟨(rate_limiter_quota_behavior 2 60).1 [0, 30] (by decide),
   (rate_limiter_quota_behavior 2 60).2 [60, 61] 5 (by decide) (by decide)
     (by decide) (by decide)⟩

/-- C8: with the window strictly under quota (as asserted on exit), a normal
exit appends exactly one expiration instant, `now + interval`; an abnormal
exit leaves the window unchanged. -/
theorem rate_limiter_exit_records_permit (q : Nat) (i : ℚ) (stamps : List ℚ) (t : ℚ)
    (h : stamps.length < q) :
    rlExit q i true stamps t = some (stamps ++ [t + i]) ∧
    rlExit q i false stamps t = some stamps := by
  constructor <;> simp [rlExit, h]

theorem rate_limiter_exit_records_permit_witness :
    rlExit 1 60 true [] 0 = some ([] ++ [(0 : ℚ) + 60]) ∧
    rlExit 1 60 false [] 0 = some [] :=
  rate_limiter_exit_records_permit 1 60 [] 0 (by decide)
